import Mathlib

/-!
Shallow embedding of `ToothFairy_preprocess.py` (ToothFairy3-Challenge).

Filenames are `String`s; Python dicts are association lists in insertion
order, where a later binding for the same key overrides an earlier one;
numpy `uint16` arrays are `List Nat` with values reduced mod 2^16.
-/

namespace TF3

/-! ### Python string primitives -/

/-- Python `s.endswith(suffix)`. -/
def pyEndsWith (s suffix : String) : Bool :=
  suffix.data.isSuffixOf s.data

/-- Python `s.startswith(p)`. -/
def pyStartsWith (s q : String) : Bool :=
  q.data.isPrefixOf s.data

/-- Scanner for Python `s.replace(pat, repl)` (leftmost, non-overlapping):
`skip` counts characters of a successful match still to be consumed.
Intended for non-empty `pat` (all uses in the source pass `".nii.gz"`). -/
def replA (pat repl : List Char) : Nat → List Char → List Char
  | _ + 1, [] => []
  | skip + 1, _ :: rest => replA pat repl skip rest
  | 0, [] => []
  | 0, c :: rest =>
    if pat.isPrefixOf (c :: rest) then
      repl ++ replA pat repl (pat.length - 1) rest
    else
      c :: replA pat repl 0 rest

/-- Python `s.replace(pat, repl)`. -/
def pyReplace (s pat repl : String) : String :=
  ⟨replA pat.data repl.data 0 s.data⟩

/-- Python `s.split(sep)` for a one-character separator. -/
def splitChar (sep : Char) : List Char → List (List Char)
  | [] => [[]]
  | c :: rest =>
    match splitChar sep rest with
    | [] => [[c]]
    | h :: t => if c = sep then [] :: h :: t else (c :: h) :: t

/-- Python `sep.join(parts)` for a one-character separator. -/
def joinChar (sep : Char) (parts : List (List Char)) : String :=
  ⟨List.intercalate [sep] parts⟩

/-! ### Source: `strip_image_id` (lines 8-10) -/

/-- `"_".join(filename.replace(".nii.gz", "").split("_")[:2])`. -/
def strip_image_id (filename : String) : String :=
  joinChar '_' ((splitChar '_' (pyReplace filename ".nii.gz" "").data).take 2)

/-! ### Source: directory collectors (lines 12-23) -/

/-- `collect_image_files_by_prefix` (lines 12-20), read off at one group:
the files ending in `".nii.gz"` whose first matching entry of `prefixes`
is `p`, in listing order.  A file is appended to the group of the first
matching entry only (the inner loop breaks). -/
def collect_image_group (files : List String) (prefixes : List String) (p : String) :
    List String :=
  files.filter fun f =>
    pyEndsWith f ".nii.gz" && (prefixes.find? (fun q => pyStartsWith f q) == some p)

/-- `collect_label_set` (lines 22-23): the stripped base names of the
`".nii.gz"` files; membership in this list is the Python set membership. -/
def collect_label_set (files : List String) : List String :=
  (files.filter fun f => pyEndsWith f ".nii.gz").map fun f => pyReplace f ".nii.gz" ""

/-! ### Source: `move_matched_pairs` selection loop (lines 32-40) -/

/-- Lines 35-38 for one image: append `(image, base + ".nii.gz")` to the
matched list when the base id is in the label set. -/
def pushMatch (labelSet : List String) (matched : List (String × String))
    (f : String) : List (String × String) :=
  if strip_image_id f ∈ labelSet then
    matched ++ [(f, strip_image_id f ++ ".nii.gz")]
  else matched

/-- The loop body of `move_matched_pairs` for one group (lines 34-40):
walk the (reverse-sorted) image list, append the pair when the base id
is in the label set, and stop as soon as `cap ≤ len(matched)` — this
test runs after every image, matched or not. -/
def matchLoop (labelSet : List String) (cap : Nat) :
    List String → List (String × String) → List (String × String)
  | [], matched => matched
  | f :: rest, matched =>
    if cap ≤ (pushMatch labelSet matched f).length then pushMatch labelSet matched f
    else matchLoop labelSet cap rest (pushMatch labelSet matched f)

/-- The number of images of a list whose base id has a label present. -/
def match_count (labelSet : List String) (imgs : List String) : Nat :=
  (imgs.filter fun f => decide (strip_image_id f ∈ labelSet)).length

/-- Python `sorted(l, reverse=True)` on filenames (stable, descending). -/
def sortRevStr (l : List String) : List String :=
  l.insertionSort fun a b => b ≤ a

/-- The matched pairs selected (and then moved) for one group `p`:
`sorted(image_groups[p], reverse=True)` walked by the selection loop
against the label set (lines 32-40). -/
def matched_pairs (images labels : List String) (prefixes : List String)
    (p : String) (cap : Nat) : List (String × String) :=
  matchLoop (collect_label_set labels) cap
    (sortRevStr (collect_image_group images prefixes p)) []

/-! ### Source: `remap_label_ids_from_json` (lines 48-72) -/

/-- `dataset.json` object written by the script (lines 59-67). -/
structure Descriptor where
  labels : List (String × Nat)
  numTraining : Int
  numTest : Int
  file_ending : String
  channel_names : List (String × String)
deriving DecidableEq

/-- `sorted(original_labels.items(), key=lambda x: int(x[1]))` (line 53);
stable sort on the original integer id. -/
def label_items (labels : List (String × Int)) : List (String × Int) :=
  labels.insertionSort fun a b => a.2 ≤ b.2

/-- The dict comprehension of line 54 before dict collapsing: the pairs
`(old_id, new_id)` in enumeration order, starting at index `n`. -/
def buildIdMap (n : Nat) : List (String × Int) → List (Int × Nat)
  | [] => []
  | (_, old) :: rest => (old, n) :: buildIdMap (n + 1) rest

/-- Python dict lookup for an insertion-ordered association list: the
binding added last wins, as in `{k: v for ...}` with colliding keys. -/
def dictGet : List (Int × Nat) → Int → Option Nat
  | [], _ => none
  | q :: rest, k =>
    match dictGet rest k with
    | some v => some v
    | none => if q.1 = k then some q.2 else none

/-- `new_id_map` (line 54) as an insertion-ordered association list;
its Python-dict meaning is `dictGet`. -/
def new_id_map (labels : List (String × Int)) : List (Int × Nat) :=
  buildIdMap 0 (label_items labels)

/-- `remapped_labels` (line 56): each name keeps its enumeration index. -/
def remapped_labels_of (n : Nat) : List (String × Int) → List (String × Nat)
  | [] => []
  | (name, _) :: rest => (name, n) :: remapped_labels_of (n + 1) rest

/-- `remapped_labels` (line 56) for the sorted items. -/
def remapped_labels (labels : List (String × Int)) : List (String × Nat) :=
  remapped_labels_of 0 (label_items labels)

/-- `remap_label_ids_from_json` (lines 48-72): the descriptor written to
`save_json_path` and the returned `new_id_map`. -/
def remap_label_ids_from_json (labels : List (String × Int)) (num_training : Int) :
    Descriptor × List (Int × Nat) :=
  ({ labels := remapped_labels labels
     numTraining := num_training + 1
     numTest := 51
     file_ending := ".nii.gz"
     channel_names := [("0", "CBCT")] },
   new_id_map labels)

/-! ### Source: `remap_labels_in_nii` (lines 74-83) -/

/-- Numpy `.astype(np.uint16)` on integral voxel values (line 76). -/
def astype_u16 (data : List Nat) : List Nat :=
  data.map (· % 65536)

/-- One iteration of the loop of lines 79-80:
`remapped_data[data == old_id] = new_id`, the store truncating to
`uint16`. -/
def remap_step (data : List Nat) (cur : List Nat) (q : Int × Nat) : List Nat :=
  (data.zip cur).map fun dc => if (dc.1 : Int) = q.1 then q.2 % 65536 else dc.2

/-- Lines 78-80: start from `np.zeros_like(data, dtype=np.uint16)` and,
for each `(old_id, new_id)` pair in order, store `new_id` (as `uint16`)
at every index where `data` equals `old_id`. -/
def apply_id_mapping (data : List Nat) (id_mapping : List (Int × Nat)) : List Nat :=
  id_mapping.foldl (remap_step data) (List.replicate data.length 0)

/-- A NIfTI volume: voxel data plus opaque framing metadata. -/
structure NiftiImage (A H : Type) where
  data : List Nat
  affine : A
  header : H

/-- `remap_labels_in_nii` (lines 74-83) at the volume level: cast the
loaded data to `uint16`, apply the id mapping, and build the output
volume with the input's affine and header (line 82). -/
def remap_labels_in_nii {A H : Type} (img : NiftiImage A H)
    (id_mapping : List (Int × Nat)) : NiftiImage A H :=
  { data := apply_id_mapping (astype_u16 img.data) id_mapping
    affine := img.affine
    header := img.header }

/-! ### Source: `remap_all_labels` (lines 85-91) and final count (lines 119-128) -/

/-- The filenames `remap_all_labels` (lines 85-91) actually processes. -/
def remap_all_labels_files (files : List String) : List String :=
  files.filter fun f => pyEndsWith f ".nii.gz"

/-- `len([f for f in os.listdir(d) if f.endswith(".nii.gz")])`
(lines 119-120). -/
def count_nii (dir : List String) : Nat :=
  (dir.filter fun f => pyEndsWith f ".nii.gz").length

/-- `num_train` as computed by `main` (lines 119-121): the training-label
directory is listed after the split, and the validation count is
subtracted from it again. -/
def final_numTraining (trainLabels valLabels : List String) : Int :=
  (count_nii trainLabels : Int) - (count_nii valLabels : Int)

/-- Lines 124-128: the finalizer rewrites only the `numTraining` field of
the descriptor read back from `dataset.json`. -/
def update_numTraining (d : Descriptor) (n : Int) : Descriptor :=
  { d with numTraining := n }

/-! ### Theorems -/

/-- C1: the final `numTraining` computed by `main` (lines 119-121) does
not equal the number of label files present in the training-label
directory after the split: with 3 label files left in `labelsTr` and 1
moved to `labelsVal`, the script writes `numTraining = 2`, not 3 — the
validation count is subtracted from a directory listing that already
excludes the moved files. -/
theorem final_numTraining_subtracts_val_again :
    final_numTraining
        ["ToothFairy3F_018.nii.gz", "ToothFairy3F_019.nii.gz", "ToothFairy3F_020.nii.gz"]
        ["ToothFairy3F_017.nii.gz"] = 2 ∧
    count_nii
        ["ToothFairy3F_018.nii.gz", "ToothFairy3F_019.nii.gz", "ToothFairy3F_020.nii.gz"]
      = 3 := by
  decide

/-- C2 (counterexample): for the label table
`[("Tooth", 5), ("Bone", 2), ("Gum", 2)]` the produced ID Mapping sends
original id 2 to 1, not to 0 as the claim states: the second entry with
value 2 ("Gum", enumeration index 1) overwrites the first in the dict
comprehension of line 54. -/
theorem new_id_map_collision_not_zero :
    dictGet (new_id_map [("Tooth", 5), ("Bone", 2), ("Gum", 2)]) 2 ≠ some 0 := by
  decide

/-- C2 (amended): for the label table
`[("Tooth", 5), ("Bone", 2), ("Gum", 2)]` the ID Mapping is
`2 ↦ 1, 5 ↦ 2` (last-sorted entry wins for a collided original id, and
"Tooth" keeps enumeration index 2), and the remapped label table is
`[("Bone", 0), ("Gum", 1), ("Tooth", 2)]` exactly as claimed. -/
theorem new_id_map_collision_behaviour :
    dictGet (new_id_map [("Tooth", 5), ("Bone", 2), ("Gum", 2)]) 2 = some 1 ∧
    dictGet (new_id_map [("Tooth", 5), ("Bone", 2), ("Gum", 2)]) 5 = some 2 ∧
    (∀ k : Int, k ≠ 2 → k ≠ 5 →
      dictGet (new_id_map [("Tooth", 5), ("Bone", 2), ("Gum", 2)]) k = none) ∧
    remapped_labels [("Tooth", 5), ("Bone", 2), ("Gum", 2)]
      = [("Bone", 0), ("Gum", 1), ("Tooth", 2)] := by
  refine ⟨by decide, by decide, ?_, by decide⟩
  intro k h2 h5
  have hmap : new_id_map [("Tooth", 5), ("Bone", 2), ("Gum", 2)]
      = [(2, 0), (2, 1), (5, 2)] := by decide
  rw [hmap]
  simp [dictGet, Ne.symm h2, Ne.symm h5]

/-- C6: the Volume Relabeler copies the affine and the header unchanged
from the input volume, and the output differs from the input in voxel
data at most: restoring the input's voxel data to the output gives back
the input volume exactly.  The embedding is a pure function, so the
input volume itself is never mutated. -/
theorem remap_labels_in_nii_frame {A H : Type} (img : NiftiImage A H)
    (id_mapping : List (Int × Nat)) :
    (remap_labels_in_nii img id_mapping).affine = img.affine ∧
    (remap_labels_in_nii img id_mapping).header = img.header ∧
    { remap_labels_in_nii img id_mapping with data := img.data } = img := by
  exact ⟨rfl, rfl, rfl⟩

/-- C8: the Metadata Finalizer changes only `numTraining`: every other
field of the patched descriptor (`labels`, `numTest`, `file_ending`,
`channel_names`) is exactly what the Remapper wrote, and the Remapper
always writes `numTest = 51`. -/
theorem update_numTraining_frame (tbl : List (String × Int)) (p n : Int) :
    (update_numTraining (remap_label_ids_from_json tbl p).1 n).labels
        = (remap_label_ids_from_json tbl p).1.labels ∧
    (update_numTraining (remap_label_ids_from_json tbl p).1 n).numTest
        = (remap_label_ids_from_json tbl p).1.numTest ∧
    (update_numTraining (remap_label_ids_from_json tbl p).1 n).file_ending
        = (remap_label_ids_from_json tbl p).1.file_ending ∧
    (update_numTraining (remap_label_ids_from_json tbl p).1 n).channel_names
        = (remap_label_ids_from_json tbl p).1.channel_names ∧
    (update_numTraining (remap_label_ids_from_json tbl p).1 n).numTraining = n ∧
    (remap_label_ids_from_json tbl p).1.numTest = 51 := by
  exact ⟨rfl, rfl, rfl, rfl, rfl, rfl⟩

/-- C9: the Remapper writes `numTraining = p + 1` for the placeholder
`p` it is given, and under the pipeline's call with `p = 0` (line 109)
the intermediate descriptor has `numTraining = 1`. -/
theorem remap_numTraining_off_by_one (tbl : List (String × Int)) (p : Int) :
    (remap_label_ids_from_json tbl p).1.numTraining = p + 1 ∧
    (remap_label_ids_from_json tbl 0).1.numTraining = 1 := by
  exact ⟨rfl, rfl⟩

/-- `dictGet` misses every key that is not among the stored keys. -/
theorem dictGet_eq_none {m : List (Int × Nat)} {k : Int}
    (h : k ∉ m.map Prod.fst) : dictGet m k = none := by
  induction m with
  | nil => rfl
  | cons q t ih =>
    simp only [List.map_cons, List.mem_cons, not_or] at h
    rw [dictGet, ih h.2, if_neg fun he => h.1 he.symm]

/-- With pairwise distinct keys, `dictGet` finds every stored pair. -/
theorem dictGet_eq_some_of_mem {m : List (Int × Nat)} {q : Int × Nat}
    (hnd : (m.map Prod.fst).Nodup) (hq : q ∈ m) : dictGet m q.1 = some q.2 := by
  induction m with
  | nil => cases hq
  | cons p t ih =>
    rw [List.map_cons, List.nodup_cons] at hnd
    rw [dictGet]
    rcases List.mem_cons.mp hq with rfl | hmem
    · rw [dictGet_eq_none hnd.1, if_pos rfl]
    · rw [ih hnd.2 hmem]

/-- Closed form of the relabeling loop: folding `remap_step` over the
pairs realises the dict semantics of the id mapping (a later pair with
the same original id overwrites an earlier one), voxels matching no pair
keeping their initial value. -/
theorem foldl_remap_step_getElem (data : List Nat) (m : List (Int × Nat)) :
    ∀ (cur : List Nat), cur.length = data.length →
      (m.foldl (remap_step data) cur).length = data.length ∧
      ∀ i, i < data.length →
        (m.foldl (remap_step data) cur)[i]? =
          some (match dictGet m ((data.getD i 0 : Nat) : Int) with
            | some v => v % 65536
            | none => cur.getD i 0) := by
  induction m with
  | nil =>
    intro cur hlen
    refine ⟨hlen, fun i hi => ?_⟩
    rw [List.foldl_nil, dictGet]
    simp [List.getD_eq_getElem?_getD, List.getElem?_eq_getElem (hlen ▸ hi)]
  | cons q t ih =>
    intro cur hlen
    have hlen' : (remap_step data cur q).length = data.length := by
      simp [remap_step, List.length_zip, hlen]
    obtain ⟨hl, hp⟩ := ih (remap_step data cur q) hlen'
    refine ⟨by simpa [List.foldl_cons] using hl, fun i hi => ?_⟩
    rw [List.foldl_cons, hp i hi]
    have hiz : i < (data.zip cur).length := by
      simp [List.length_zip, hlen]; omega
    have hstep : (remap_step data cur q).getD i 0 =
        if ((data.getD i 0 : Nat) : Int) = q.1 then q.2 % 65536 else cur.getD i 0 := by
      have hid : i < data.length := hi
      have hic : i < cur.length := hlen ▸ hi
      simp only [remap_step, List.getD_eq_getElem?_getD,
        List.getElem?_eq_getElem (show i < ((data.zip cur).map fun dc =>
          if (dc.1 : Int) = q.1 then q.2 % 65536 else dc.2).length by
            simpa using hiz),
        List.getElem_map, List.getElem_zip, Option.getD_some,
        List.getElem?_eq_getElem hid, List.getElem?_eq_getElem hic]
    rw [hstep, dictGet]
    cases hdt : dictGet t ((data.getD i 0 : Nat) : Int) with
    | some v => rfl
    | none =>
      by_cases hc : ((data.getD i 0 : Nat) : Int) = q.1
      · rw [if_pos hc, if_pos hc.symm]
      · rw [if_neg hc, if_neg fun he => hc he.symm]

/-- C4: for every label volume with `uint16` voxel values, and every ID
Mapping (pairwise distinct original ids, new ids representable in
`uint16`), the relabeled volume holds `new_id` at every voxel whose
input value is the pair's `old_id`, and `0` at every voxel whose input
value is no pair's key. -/
theorem remap_labels_in_nii_voxels {A H : Type} (img : NiftiImage A H)
    (id_mapping : List (Int × Nat))
    (hnd : (id_mapping.map Prod.fst).Nodup)
    (hdata : ∀ v ∈ img.data, v < 65536)
    (hnew : ∀ q ∈ id_mapping, q.2 < 65536) :
    (remap_labels_in_nii img id_mapping).data.length = img.data.length ∧
    ∀ i, i < img.data.length →
      (∀ q ∈ id_mapping, ((img.data.getD i 0 : Nat) : Int) = q.1 →
        (remap_labels_in_nii img id_mapping).data[i]? = some q.2) ∧
      ((∀ q ∈ id_mapping, ((img.data.getD i 0 : Nat) : Int) ≠ q.1) →
        (remap_labels_in_nii img id_mapping).data[i]? = some 0) := by
  have hcast : astype_u16 img.data = img.data := by
    rw [astype_u16]
    exact (List.map_congr_left fun a ha => Nat.mod_eq_of_lt (hdata a ha)).trans
      (List.map_id' img.data)
  have hout : (remap_labels_in_nii img id_mapping).data
      = id_mapping.foldl (remap_step img.data) (List.replicate img.data.length 0) := by
    simp [remap_labels_in_nii, apply_id_mapping, hcast]
  obtain ⟨hl, hp⟩ := foldl_remap_step_getElem img.data id_mapping
    (List.replicate img.data.length 0) (by simp)
  refine ⟨by rw [hout]; exact hl, fun i hi => ?_⟩
  constructor
  · intro q hq hqi
    rw [hout, hp i hi, hqi, dictGet_eq_some_of_mem hnd hq]
    simp [Nat.mod_eq_of_lt (hnew q hq)]
  · intro hnone
    have hkey : ((img.data.getD i 0 : Nat) : Int) ∉ id_mapping.map Prod.fst := by
      intro hmem
      obtain ⟨q, hq, hfst⟩ := List.mem_map.mp hmem
      exact hnone q hq hfst.symm
    rw [hout, hp i hi, dictGet_eq_none hkey]
    simp [List.getD_eq_getElem?_getD,
      List.getElem?_eq_getElem
        (show i < (List.replicate img.data.length (0 : Nat)).length by simpa using hi)]

/-- C4 witness: volume `[2, 5, 7]` with mapping `[(2, 0), (5, 1)]`. -/
theorem remap_labels_in_nii_voxels_witness :
    (([(2, 0), (5, 1)] : List (Int × Nat)).map Prod.fst).Nodup ∧
    ((remap_labels_in_nii (⟨[2, 5, 7], 0, 0⟩ : NiftiImage Nat Nat)
        [(2, 0), (5, 1)]).data.length = ([2, 5, 7] : List Nat).length ∧
      ∀ i, i < (([2, 5, 7] : List Nat)).length →
        (∀ q ∈ ([(2, 0), (5, 1)] : List (Int × Nat)),
          ((([2, 5, 7] : List Nat).getD i 0 : Nat) : Int) = q.1 →
          (remap_labels_in_nii (⟨[2, 5, 7], 0, 0⟩ : NiftiImage Nat Nat)
            [(2, 0), (5, 1)]).data[i]? = some q.2) ∧
        ((∀ q ∈ ([(2, 0), (5, 1)] : List (Int × Nat)),
          ((([2, 5, 7] : List Nat).getD i 0 : Nat) : Int) ≠ q.1) →
          (remap_labels_in_nii (⟨[2, 5, 7], 0, 0⟩ : NiftiImage Nat Nat)
            [(2, 0), (5, 1)]).data[i]? = some 0)) :=
  ⟨by decide,
    remap_labels_in_nii_voxels (⟨[2, 5, 7], 0, 0⟩ : NiftiImage Nat Nat)
      [(2, 0), (5, 1)] (by decide) (by decide) (by decide)⟩

/-- The selection loop never grows the matched list beyond `cap`, as
long as it starts strictly below `cap`. -/
theorem matchLoop_length_le (labelSet : List String) (cap : Nat) :
    ∀ (imgs : List String) (acc : List (String × String)),
      acc.length < cap → (matchLoop labelSet cap imgs acc).length ≤ cap := by
  intro imgs
  induction imgs with
  | nil =>
    intro acc hacc
    rw [matchLoop]
    omega
  | cons f rest ih =>
    intro acc hacc
    have hpush : (pushMatch labelSet acc f).length ≤ acc.length + 1 := by
      by_cases hb : strip_image_id f ∈ labelSet <;> simp [pushMatch, hb]
    rw [matchLoop]
    by_cases hc : cap ≤ (pushMatch labelSet acc f).length
    · rw [if_pos hc]
      omega
    · rw [if_neg hc]
      exact ih (pushMatch labelSet acc f) (by omega)

/-- When at least `cap - acc.length` further matches are available, the
selection loop returns exactly `cap` pairs. -/
theorem matchLoop_length_eq (labelSet : List String) (cap : Nat) :
    ∀ (imgs : List String) (acc : List (String × String)),
      acc.length < cap →
      cap ≤ acc.length + match_count labelSet imgs →
      (matchLoop labelSet cap imgs acc).length = cap := by
  intro imgs
  induction imgs with
  | nil =>
    intro acc hacc hcnt
    simp only [match_count, List.filter_nil, List.length_nil] at hcnt
    omega
  | cons f rest ih =>
    intro acc hacc hcnt
    rw [matchLoop]
    by_cases hb : strip_image_id f ∈ labelSet
    · have hpush : (pushMatch labelSet acc f).length = acc.length + 1 := by
        simp [pushMatch, hb]
      have hcnt' : match_count labelSet (f :: rest)
          = match_count labelSet rest + 1 := by
        simp [match_count, List.filter_cons, hb]
      by_cases hc : cap ≤ (pushMatch labelSet acc f).length
      · rw [if_pos hc]
        omega
      · rw [if_neg hc]
        exact ih (pushMatch labelSet acc f) (by omega) (by omega)
    · have hpush : (pushMatch labelSet acc f).length = acc.length := by
        simp [pushMatch, hb]
      have hcnt' : match_count labelSet (f :: rest) = match_count labelSet rest := by
        simp [match_count, List.filter_cons, hb]
      rw [if_neg (by omega)]
      exact ih (pushMatch labelSet acc f) (by omega) (by omega)

/-- C5 (counterexample): with a per-prefix cap of `0` the Pair Splitter
still moves one pair when the first reverse-sorted image has a label:
the cap test of line 39 runs only after the image has been processed, so
"at most cap pairs moved" fails for `cap = 0`. -/
theorem matched_pairs_cap_zero_moves_one :
    (matched_pairs ["ToothFairy3F_001_0000.nii.gz"] ["ToothFairy3F_001.nii.gz"]
        ["ToothFairy3F"] "ToothFairy3F" 0).length = 1 := by
  decide

/-- C5 (amended): for every per-prefix cap `≥ 1`, the Pair Splitter
moves at most `cap` matched pairs for a prefix, and moves exactly `cap`
pairs whenever at least `cap` images of that prefix group have a
matching label present. -/
theorem matched_pairs_cap_bounds (images labels : List String)
    (prefixes : List String) (p : String) (cap : Nat) (hcap : 1 ≤ cap) :
    (matched_pairs images labels prefixes p cap).length ≤ cap ∧
    (cap ≤ match_count (collect_label_set labels)
        (collect_image_group images prefixes p) →
      (matched_pairs images labels prefixes p cap).length = cap) := by
  have h0 : ([] : List (String × String)).length < cap := by
    simpa using hcap
  constructor
  · exact matchLoop_length_le _ _ _ [] h0
  · intro hge
    have hperm : List.Perm (sortRevStr (collect_image_group images prefixes p))
        (collect_image_group images prefixes p) :=
      List.perm_insertionSort _ _
    have hcnt : match_count (collect_label_set labels)
        (sortRevStr (collect_image_group images prefixes p))
        = match_count (collect_label_set labels)
            (collect_image_group images prefixes p) :=
      (hperm.filter _).length_eq
    exact matchLoop_length_eq _ _ _ [] h0 (by simpa [hcnt] using hge)

/-- C5 witness: cap `1` with two matching pairs available selects
exactly one pair. -/
theorem matched_pairs_cap_bounds_witness :
    1 ≤ 1 ∧
    ((matched_pairs
        ["ToothFairy3F_001_0000.nii.gz", "ToothFairy3F_002_0000.nii.gz"]
        ["ToothFairy3F_001.nii.gz", "ToothFairy3F_002.nii.gz"]
        ["ToothFairy3F"] "ToothFairy3F" 1).length ≤ 1 ∧
      (1 ≤ match_count
          (collect_label_set ["ToothFairy3F_001.nii.gz", "ToothFairy3F_002.nii.gz"])
          (collect_image_group
            ["ToothFairy3F_001_0000.nii.gz", "ToothFairy3F_002_0000.nii.gz"]
            ["ToothFairy3F"] "ToothFairy3F") →
        (matched_pairs
          ["ToothFairy3F_001_0000.nii.gz", "ToothFairy3F_002_0000.nii.gz"]
          ["ToothFairy3F_001.nii.gz", "ToothFairy3F_002.nii.gz"]
          ["ToothFairy3F"] "ToothFairy3F" 1).length = 1)) :=
  ⟨Nat.le_refl 1,
    matched_pairs_cap_bounds
      ["ToothFairy3F_001_0000.nii.gz", "ToothFairy3F_002_0000.nii.gz"]
      ["ToothFairy3F_001.nii.gz", "ToothFairy3F_002.nii.gz"]
      ["ToothFairy3F"] "ToothFairy3F" 1 (Nat.le_refl 1)⟩

/-- A label filename built by the splitter (line 36) always carries the
`".nii.gz"` suffix. -/
theorem pyEndsWith_append_nii (s : String) :
    pyEndsWith (s ++ ".nii.gz") ".nii.gz" = true := by
  simp [pyEndsWith, String.data_append, List.isSuffixOf_iff_suffix]

/-- Every pair the selection loop returns is either already in the
accumulator or is `(image, base + ".nii.gz")` for an image of the walked
list. -/
theorem matchLoop_mem (labelSet : List String) (cap : Nat) :
    ∀ (imgs : List String) (acc : List (String × String)),
      ∀ pr ∈ matchLoop labelSet cap imgs acc,
        pr ∈ acc ∨ (pr.1 ∈ imgs ∧ pr.2 = strip_image_id pr.1 ++ ".nii.gz") := by
  intro imgs
  induction imgs with
  | nil =>
    intro acc pr hpr
    rw [matchLoop] at hpr
    exact Or.inl hpr
  | cons f rest ih =>
    intro acc pr hpr
    have hpush : ∀ q ∈ pushMatch labelSet acc f,
        q ∈ acc ∨ (q.1 ∈ f :: rest ∧ q.2 = strip_image_id q.1 ++ ".nii.gz") := by
      intro q hq
      rw [pushMatch] at hq
      by_cases hb : strip_image_id f ∈ labelSet
      · rw [if_pos hb] at hq
        rcases List.mem_append.mp hq with hq | hq
        · exact Or.inl hq
        · rcases List.mem_singleton.mp hq with rfl
          exact Or.inr ⟨List.mem_cons_self f rest, rfl⟩
      · rw [if_neg hb] at hq
        exact Or.inl hq
    rw [matchLoop] at hpr
    by_cases hc : cap ≤ (pushMatch labelSet acc f).length
    · rw [if_pos hc] at hpr
      exact hpush pr hpr
    · rw [if_neg hc] at hpr
      rcases ih (pushMatch labelSet acc f) pr hpr with hacc | ⟨hmem, hsuf⟩
      · exact hpush pr hacc
      · exact Or.inr ⟨List.mem_cons_of_mem f hmem, hsuf⟩

/-- C10: a file whose name does not end in `".nii.gz"` is never grouped
under a prefix, never relabeled, contributes nothing to the label set,
is never part of a pair the splitter moves, and is never counted in the
final `numTraining` computation. -/
theorem non_nii_files_untouched (f : String)
    (h : pyEndsWith f ".nii.gz" = false) :
    (∀ (files prefixes : List String) (p : String),
      f ∉ collect_image_group files prefixes p) ∧
    (∀ files : List String, f ∉ remap_all_labels_files files) ∧
    (∀ files : List String, collect_label_set (f :: files) = collect_label_set files) ∧
    (∀ (images labels prefixes : List String) (p : String) (cap : Nat),
      ∀ pr ∈ matched_pairs images labels prefixes p cap, pr.1 ≠ f ∧ pr.2 ≠ f) ∧
    (∀ dir : List String, count_nii (f :: dir) = count_nii dir) := by
  refine ⟨?_, ?_, ?_, ?_, ?_⟩
  · intro files prefixes p hmem
    have := (List.mem_filter.mp hmem).2
    rw [Bool.and_eq_true] at this
    rw [h] at this
    exact Bool.false_ne_true this.1
  · intro files hmem
    have := (List.mem_filter.mp hmem).2
    rw [h] at this
    exact Bool.false_ne_true this
  · intro files
    simp [collect_label_set, List.filter_cons, h]
  · intro images labels prefixes p cap pr hpr
    rcases matchLoop_mem _ _ _ [] pr hpr with hacc | ⟨hmem, hsuf⟩
    · cases hacc
    · constructor
      · intro he
        have hgrp : pr.1 ∈ collect_image_group images prefixes p := by
          have := hmem
          rw [sortRevStr] at this
          exact (List.mem_insertionSort _).mp this
        have := (List.mem_filter.mp hgrp).2
        rw [Bool.and_eq_true, he, h] at this
        exact Bool.false_ne_true this.1
      · intro he
        have : pyEndsWith pr.2 ".nii.gz" = true := hsuf ▸ pyEndsWith_append_nii _
        rw [he, h] at this
        exact Bool.false_ne_true this
  · intro dir
    simp [count_nii, List.filter_cons, h]

/-- C10 witness: `"notes.txt"` is untouched by every stage. -/
theorem non_nii_files_untouched_witness :
    pyEndsWith "notes.txt" ".nii.gz" = false ∧
    ((∀ (files prefixes : List String) (p : String),
        "notes.txt" ∉ collect_image_group files prefixes p) ∧
      (∀ files : List String, "notes.txt" ∉ remap_all_labels_files files) ∧
      (∀ files : List String,
        collect_label_set ("notes.txt" :: files) = collect_label_set files) ∧
      (∀ (images labels prefixes : List String) (p : String) (cap : Nat),
        ∀ pr ∈ matched_pairs images labels prefixes p cap,
          pr.1 ≠ "notes.txt" ∧ pr.2 ≠ "notes.txt") ∧
      (∀ dir : List String, count_nii ("notes.txt" :: dir) = count_nii dir)) :=
  ⟨by decide, non_nii_files_untouched "notes.txt" (by decide)⟩

/-- The selection loop depends on the label set only through
membership, as a Python `set` does. -/
theorem matchLoop_congr {ls1 ls2 : List String}
    (hmem : ∀ s, s ∈ ls1 ↔ s ∈ ls2) (cap : Nat) :
    ∀ (imgs : List String) (acc : List (String × String)),
      matchLoop ls1 cap imgs acc = matchLoop ls2 cap imgs acc := by
  intro imgs
  induction imgs with
  | nil =>
    intro acc
    rw [matchLoop, matchLoop]
  | cons f rest ih =>
    intro acc
    have hpush : pushMatch ls1 acc f = pushMatch ls2 acc f := by
      rw [pushMatch, pushMatch]
      by_cases hb : strip_image_id f ∈ ls1
      · rw [if_pos hb, if_pos ((hmem _).mp hb)]
      · rw [if_neg hb, if_neg fun hb2 => hb ((hmem _).mpr hb2)]
    rw [matchLoop, matchLoop, hpush, ih]

/-- Sorting in reverse lexicographic order erases any difference in
listing order: permuted inputs sort to the same list. -/
theorem sortRevStr_perm_eq {l1 l2 : List String} (hperm : List.Perm l1 l2) :
    sortRevStr l1 = sortRevStr l2 := by
  haveI : IsTotal String fun a b : String => b ≤ a := ⟨fun a b => le_total b a⟩
  haveI : IsTrans String fun a b : String => b ≤ a :=
    ⟨fun _ _ _ h1 h2 => le_trans h2 h1⟩
  haveI : IsAntisymm String fun a b : String => b ≤ a :=
    ⟨fun _ _ h1 h2 => le_antisymm h2 h1⟩
  exact List.eq_of_perm_of_sorted
    (((List.perm_insertionSort _ l1).trans hperm).trans
      (List.perm_insertionSort _ l2).symm)
    (List.sorted_insertionSort _ l1) (List.sorted_insertionSort _ l2)

/-- C7: two runs of the Pair Splitter over directories with identical
sets of image filenames and identical sets of label filenames select
exactly the same pairs, whatever order the directory listing enumerates
the files in. -/
theorem matched_pairs_listing_independent
    (images1 images2 labels1 labels2 : List String)
    (prefixes : List String) (p : String) (cap : Nat)
    (hn1 : images1.Nodup) (hn2 : images2.Nodup)
    (hI : ∀ s, s ∈ images1 ↔ s ∈ images2)
    (hL : ∀ s, s ∈ labels1 ↔ s ∈ labels2) :
    matched_pairs images1 labels1 prefixes p cap
      = matched_pairs images2 labels2 prefixes p cap := by
  have hperm : List.Perm images1 images2 :=
    (List.perm_ext_iff_of_nodup hn1 hn2).mpr hI
  have hgrp : List.Perm (collect_image_group images1 prefixes p)
      (collect_image_group images2 prefixes p) := hperm.filter _
  have hsort : sortRevStr (collect_image_group images1 prefixes p)
      = sortRevStr (collect_image_group images2 prefixes p) :=
    sortRevStr_perm_eq hgrp
  have hset : ∀ s, s ∈ collect_label_set labels1 ↔ s ∈ collect_label_set labels2 := by
    intro s
    simp only [collect_label_set, List.mem_map, List.mem_filter]
    exact exists_congr fun a => by rw [hL a]
  rw [matched_pairs, matched_pairs, hsort, matchLoop_congr hset]

/-- C7 witness: the same two image files listed in opposite orders give
the same selected pairs. -/
theorem matched_pairs_listing_independent_witness :
    (["ToothFairy3F_002_0000.nii.gz", "ToothFairy3F_001_0000.nii.gz"] :
        List String).Nodup ∧
    (["ToothFairy3F_001_0000.nii.gz", "ToothFairy3F_002_0000.nii.gz"] :
        List String).Nodup ∧
    matched_pairs ["ToothFairy3F_002_0000.nii.gz", "ToothFairy3F_001_0000.nii.gz"]
        ["ToothFairy3F_001.nii.gz", "ToothFairy3F_002.nii.gz"]
        ["ToothFairy3F"] "ToothFairy3F" 17
      = matched_pairs ["ToothFairy3F_001_0000.nii.gz", "ToothFairy3F_002_0000.nii.gz"]
          ["ToothFairy3F_002.nii.gz", "ToothFairy3F_001.nii.gz"]
          ["ToothFairy3F"] "ToothFairy3F" 17 :=
  ⟨by decide, by decide,
    matched_pairs_listing_independent
      ["ToothFairy3F_002_0000.nii.gz", "ToothFairy3F_001_0000.nii.gz"]
      ["ToothFairy3F_001_0000.nii.gz", "ToothFairy3F_002_0000.nii.gz"]
      ["ToothFairy3F_001.nii.gz", "ToothFairy3F_002.nii.gz"]
      ["ToothFairy3F_002.nii.gz", "ToothFairy3F_001.nii.gz"]
      ["ToothFairy3F"] "ToothFairy3F" 17
      (by decide) (by decide)
      (fun s => by simp [List.mem_cons, or_comm])
      (fun s => by simp [List.mem_cons, or_comm])⟩

/-- Characterization of the enumeration dict: with pairwise distinct
original ids, `dictGet` sends `k` to `v` exactly when `k` is the
original id sitting at position `v - n` of the enumerated list. -/
theorem dictGet_buildIdMap (l : List (String × Int)) :
    (l.map Prod.snd).Nodup →
    ∀ (n : Nat) (k : Int) (v : Nat),
      dictGet (buildIdMap n l) k = some v ↔
        ∃ (i : Nat) (h : i < l.length), (l.get ⟨i, h⟩).2 = k ∧ v = n + i := by
  induction l with
  | nil =>
    intro _ n k v
    simp [buildIdMap, dictGet]
  | cons a t ih =>
    intro hnd n k v
    rw [List.map_cons, List.nodup_cons] at hnd
    rw [buildIdMap]
    constructor
    · intro hsome
      rw [dictGet] at hsome
      cases hdt : dictGet (buildIdMap (n + 1) t) k with
      | some w =>
        rw [hdt] at hsome
        obtain ⟨j, hj, hjk, hjv⟩ := (ih hnd.2 (n + 1) k w).mp hdt
        have hv : v = w := by
          injection hsome with hw
          omega
        refine ⟨j + 1, Nat.succ_lt_succ hj, ?_, by omega⟩
        exact hjk
      | none =>
        rw [hdt] at hsome
        by_cases hak : a.2 = k
        · rw [if_pos hak] at hsome
          have hv : v = n := by
            injection hsome with hw
            omega
          exact ⟨0, Nat.succ_pos _, hak, by omega⟩
        · rw [if_neg hak] at hsome
          cases hsome
    · rintro ⟨i, hi, hik, rfl⟩
      rw [dictGet]
      cases i with
      | zero =>
        have hak : a.2 = k := hik
        have hnone : dictGet (buildIdMap (n + 1) t) k = none := by
          cases hdt : dictGet (buildIdMap (n + 1) t) k with
          | none => rfl
          | some w =>
            obtain ⟨j, hj, hjk, _⟩ := (ih hnd.2 (n + 1) k w).mp hdt
            exact absurd (hak ▸ hjk ▸ List.mem_map_of_mem Prod.snd
              (List.get_mem t j hj)) hnd.1
        rw [hnone, if_pos hak]
        norm_num
      | succ j =>
        have hjk : (t.get ⟨j, Nat.lt_of_succ_lt_succ hi⟩).2 = k := hik
        have hsome : dictGet (buildIdMap (n + 1) t) k = some (n + (j + 1)) :=
          (ih hnd.2 (n + 1) k (n + (j + 1))).mpr
            ⟨j, Nat.lt_of_succ_lt_succ hi, hjk, by omega⟩
        rw [hsome]

/-- The sorted label items are strictly increasing in the original id
when the original ids are pairwise distinct. -/
theorem label_items_pairwise_lt (labels : List (String × Int))
    (hnd : (labels.map Prod.snd).Nodup) :
    List.Pairwise (fun a b : String × Int => a.2 < b.2) (label_items labels) := by
  haveI : IsTotal (String × Int) fun a b : String × Int => a.2 ≤ b.2 :=
    ⟨fun a b => le_total a.2 b.2⟩
  haveI : IsTrans (String × Int) fun a b : String × Int => a.2 ≤ b.2 :=
    ⟨fun _ _ _ h1 h2 => le_trans h1 h2⟩
  have hsorted : List.Pairwise (fun a b : String × Int => a.2 ≤ b.2)
      (label_items labels) := List.sorted_insertionSort _ _
  have hperm : List.Perm (label_items labels) labels :=
    List.perm_insertionSort _ _
  have hnd' : ((label_items labels).map Prod.snd).Nodup :=
    hnd.perm ((hperm.map Prod.snd).symm)
  have hne : List.Pairwise (fun a b : String × Int => a.2 ≠ b.2)
      (label_items labels) := List.pairwise_map.mp hnd'
  exact (hsorted.and hne).imp fun h => lt_of_le_of_ne h.1 h.2

/-- C3 (counterexample): for the label table with a duplicated original
id `[("Tooth", 5), ("Bone", 2), ("Gum", 2)]` there are 2 distinct
original ids, yet the ID Mapping sends 5 to 2 ∉ {0, 1}: it is not a
bijection onto `{0, ..., N-1}`. -/
theorem new_id_map_not_onto_range :
    dictGet (new_id_map [("Tooth", 5), ("Bone", 2), ("Gum", 2)]) 5 = some 2 ∧
    (([("Tooth", 5), ("Bone", 2), ("Gum", 2)].map Prod.snd).dedup.length = 2) ∧
    ¬ (2 : Nat) < 2 := by
  decide

/-- C3 (amended): for every label table whose original ids are pairwise
distinct, the ID Mapping is defined exactly on the original ids, maps
them onto `{0, ..., N-1}` (`N` the number of entries, which equals the
number of distinct ids), and is strictly order-preserving — hence a
monotone bijection. -/
theorem new_id_map_bijective_monotone (labels : List (String × Int))
    (hnd : (labels.map Prod.snd).Nodup) :
    (∀ k ∈ labels.map Prod.snd,
      ∃ v, dictGet (new_id_map labels) k = some v ∧ v < labels.length) ∧
    (∀ (k : Int) (v : Nat),
      dictGet (new_id_map labels) k = some v → k ∈ labels.map Prod.snd) ∧
    (∀ v, v < labels.length →
      ∃ k ∈ labels.map Prod.snd, dictGet (new_id_map labels) k = some v) ∧
    (∀ (k1 k2 : Int) (v1 v2 : Nat),
      dictGet (new_id_map labels) k1 = some v1 →
      dictGet (new_id_map labels) k2 = some v2 →
      k1 < k2 → v1 < v2) := by
  have hperm : List.Perm (label_items labels) labels :=
    List.perm_insertionSort _ _
  have hnds : ((label_items labels).map Prod.snd).Nodup :=
    hnd.perm ((hperm.map Prod.snd).symm)
  have hchar := dictGet_buildIdMap (label_items labels) hnds 0
  have hlen : (label_items labels).length = labels.length :=
    List.length_insertionSort _ _
  have hmem : ∀ k : Int,
      (k ∈ labels.map Prod.snd ↔ k ∈ (label_items labels).map Prod.snd) :=
    fun k => ((hperm.map Prod.snd).mem_iff).symm
  have hpl := label_items_pairwise_lt labels hnd
  have hplg := List.pairwise_iff_getElem.mp hpl
  refine ⟨?_, ?_, ?_, ?_⟩
  · intro k hk
    obtain ⟨i, hi, hik⟩ := List.mem_iff_getElem.mp ((hmem k).mp hk)
    have hi' : i < (label_items labels).length := by
      simpa using hi
    refine ⟨i, ?_, by omega⟩
    exact (hchar k i).mpr ⟨i, hi', by
      rw [List.get_eq_getElem]
      rw [List.getElem_map] at hik
      exact hik, by omega⟩
  · intro k v hv
    obtain ⟨i, hi, hik, _⟩ := (hchar k v).mp hv
    refine (hmem k).mpr ?_
    exact hik ▸ List.mem_map_of_mem Prod.snd (List.get_mem _ i hi)
  · intro v hv
    have hv' : v < (label_items labels).length := by omega
    refine ⟨((label_items labels).get ⟨v, hv'⟩).2, ?_, ?_⟩
    · exact (hmem _).mpr
        (List.mem_map_of_mem Prod.snd (List.get_mem _ v hv'))
    · exact (hchar _ v).mpr ⟨v, hv', rfl, by omega⟩
  · intro k1 k2 v1 v2 h1 h2 hk
    obtain ⟨i1, hi1, hik1, hv1⟩ := (hchar k1 v1).mp h1
    obtain ⟨i2, hi2, hik2, hv2⟩ := (hchar k2 v2).mp h2
    have hne : i1 ≠ i2 := by
      intro he
      subst he
      have heq : k1 = k2 := hik1.symm.trans hik2
      omega
    rcases Nat.lt_or_ge i1 i2 with hlt | hge
    · omega
    · have hlt2 : i2 < i1 := by omega
      have hstep := hplg i2 i1 hi2 hi1 hlt2
      have hf1 : (label_items labels)[i1].2 = k1 := hik1
      have hf2 : (label_items labels)[i2].2 = k2 := hik2
      omega

/-- C3 witness: the table `[("A", 7), ("B", 3)]` with distinct ids. -/
theorem new_id_map_bijective_monotone_witness :
    (([("A", 7), ("B", 3)] : List (String × Int)).map Prod.snd).Nodup ∧
    ((∀ k ∈ ([("A", 7), ("B", 3)] : List (String × Int)).map Prod.snd,
      ∃ v, dictGet (new_id_map [("A", 7), ("B", 3)]) k = some v ∧
        v < ([("A", 7), ("B", 3)] : List (String × Int)).length) ∧
    (∀ (k : Int) (v : Nat),
      dictGet (new_id_map [("A", 7), ("B", 3)]) k = some v →
        k ∈ ([("A", 7), ("B", 3)] : List (String × Int)).map Prod.snd) ∧
    (∀ v, v < ([("A", 7), ("B", 3)] : List (String × Int)).length →
      ∃ k ∈ ([("A", 7), ("B", 3)] : List (String × Int)).map Prod.snd,
        dictGet (new_id_map [("A", 7), ("B", 3)]) k = some v) ∧
    (∀ (k1 k2 : Int) (v1 v2 : Nat),
      dictGet (new_id_map [("A", 7), ("B", 3)]) k1 = some v1 →
      dictGet (new_id_map [("A", 7), ("B", 3)]) k2 = some v2 →
      k1 < k2 → v1 < v2)) :=
  ⟨by decide, new_id_map_bijective_monotone [("A", 7), ("B", 3)] (by decide)⟩

end TF3
